import Mathlib

/-!
A shallow embedding of the route-discovery-and-capture engine of the
SPA-aware site crawler (crawler/crawl.js), with proofs about it.

Addresses are modelled by a simplified WHATWG-style URL record: strings of
the form scheme:opaque-path or scheme://host[:port]path[?query][#fragment].
The model keeps characters as written (no percent-encoding, no dot-segment
normalisation, no tab/newline stripping) and lowercases scheme and host,
matching the JavaScript URL class on the already-encoded ASCII addresses the
crawler manipulates.  Strings are manipulated through their character lists.
-/

/-- Split a list at the first occurrence of a character: the part before it
and, when the character occurs, the part after it. -/
def splitAtFirst (c : Char) : List Char → List Char × Option (List Char)
  | [] => ([], none)
  | a :: t =>
    if a = c then ([], some t)
    else
      let r := splitAtFirst c t
      (a :: r.1, r.2)

/-- Split a list at the last occurrence of a character: the part before it
and, when the character occurs, the part after it. -/
def splitAtLast (c : Char) (l : List Char) : List Char × Option (List Char) :=
  let r := splitAtFirst c l.reverse
  match r.2 with
  | none => (l, none)
  | some before => (before.reverse, some r.1.reverse)

/-- Drop the longest suffix whose characters satisfy the predicate. -/
def dropTrailing (p : Char → Bool) (l : List Char) : List Char :=
  (l.reverse.dropWhile p).reverse

/-- Does the second list start with the first one? -/
def startsWithL : List Char → List Char → Bool
  | [], _ => true
  | _ :: _, [] => false
  | a :: t, b :: u => a = b && startsWithL t u

/-- Does the list contain the first list as a contiguous sublist? -/
def containsSubL (pat : List Char) : List Char → Bool
  | [] => pat.isEmpty
  | a :: t => startsWithL pat (a :: t) || containsSubL pat t

/-- Lowercase every character (ASCII). -/
def lowerL (l : List Char) : List Char := l.map Char.toLower

/-- JavaScript String.prototype.trim: strip whitespace from both ends. -/
def trimL (l : List Char) : List Char :=
  dropTrailing (fun c => c.isWhitespace) (l.dropWhile (fun c => c.isWhitespace))

/-- Replace the first occurrence of a pattern, as the JavaScript
String.prototype.replace with a plain string pattern does. -/
def replaceFirstL (pat repl : List Char) : List Char → List Char
  | [] => if pat.isEmpty then repl else []
  | a :: t =>
    if startsWithL pat (a :: t) then repl ++ (a :: t).drop pat.length
    else a :: replaceFirstL pat repl t

/-- String starts-with through character lists (kept kernel-friendly). -/
def strStartsWith (s pat : String) : Bool := startsWithL pat.data s.data

/-- Strip one trailing slash, as the JavaScript replace of the pattern
slash-at-end with the empty string. -/
def stripOneTrailingSlashL (l : List Char) : List Char :=
  match l.reverse with
  | c :: t => if c = '/' then t.reverse else l
  | [] => l

/-- Strip every trailing slash. -/
def stripTrailingSlashesL (l : List Char) : List Char :=
  dropTrailing (fun c => c = '/') l

/-- Strip a leading hash mark followed by an optional slash (the crawler's
one-shot regex replace of hash-slash at the start). -/
def stripHashPfxL (l : List Char) : List Char :=
  match l with
  | c :: t =>
    if c = '#' then
      match t with
      | d :: u => if d = '/' then u else t
      | [] => []
    else l
  | [] => l

/-- Strip one leading slash. -/
def stripOneLeadingSlashL (l : List Char) : List Char :=
  match l with
  | c :: t => if c = '/' then t else l
  | [] => l

/- ── URL model ──────────────────────────────────────────────────────── -/

/-- The components the crawler reads off a parsed address. -/
structure URLParts where
  scheme : String
  hasAuthority : Bool
  host : String
  port : String
  pathname : String
  search : String
  hash : String
deriving Repr, DecidableEq

/-- Characters allowed in a scheme after the first one. -/
def isSchemeChar (c : Char) : Bool := c.isAlphanum || c = '+' || c = '-' || c = '.'

/-- A valid scheme: nonempty, starts with a letter, scheme characters only. -/
def validSchemeL (l : List Char) : Bool :=
  match l with
  | [] => false
  | a :: _ => a.isAlpha && l.all isSchemeChar

/-- Build the hash component: empty fragments read back as the empty string,
as with the JavaScript URL class. -/
def mkHash : Option (List Char) → String
  | none => ""
  | some [] => ""
  | some f => String.mk ('#' :: f)

/-- Build the search component; empty queries read back as the empty string. -/
def mkSearch : Option (List Char) → String
  | none => ""
  | some [] => ""
  | some q => String.mk ('?' :: q)

/-- Build the pathname of an authority-style address; it always starts with
a slash and defaults to a bare slash. -/
def mkPathname : Option (List Char) → String
  | none => "/"
  | some p => String.mk ('/' :: p)

/-- Default ports are dropped by the URL class. -/
def canonPort (scheme p : List Char) : List Char :=
  if (scheme = "https".data ∧ p = "443".data) ∨ (scheme = "http".data ∧ p = "80".data)
  then [] else p

/-- Parse an authority: userinfo up to the last at-sign is dropped, an
optional numeric port follows the last colon, the host must be nonempty. -/
def parseAuthority (scheme auth : List Char) : Option (List Char × List Char) :=
  let hostPort :=
    match splitAtLast '@' auth with
    | (_, none) => auth
    | (_, some hp) => hp
  match splitAtLast ':' hostPort with
  | (h, some p) =>
    if p.all Char.isDigit then
      if h = [] then none else some (h, canonPort scheme p)
    else none
  | (h, none) => if h = [] then none else some (h, [])

/-- Parse what follows the scheme colon: a double slash introduces an
authority, anything else is an opaque path. -/
def parseAfterScheme (scheme rest : List Char) (search hash : String) : Option URLParts :=
  match rest with
  | c :: d :: after =>
    if c = '/' ∧ d = '/' then
      let au := splitAtFirst '/' after
      match parseAuthority scheme au.1 with
      | none => none
      | some hp =>
        some ⟨String.mk scheme, true, String.mk (lowerL hp.1), String.mk hp.2,
              mkPathname au.2, search, hash⟩
    else some ⟨String.mk scheme, false, "", "", String.mk rest, search, hash⟩
  | _ => some ⟨String.mk scheme, false, "", "", String.mk rest, search, hash⟩

/-- Parse an absolute address: fragment first, then query, then scheme. -/
def parseURLL (l : List Char) : Option URLParts :=
  let fr := splitAtFirst '#' l
  let qu := splitAtFirst '?' fr.1
  let sc := splitAtFirst ':' qu.1
  match sc.2 with
  | none => none
  | some rest =>
    if validSchemeL sc.1 then
      parseAfterScheme (lowerL sc.1) rest (mkSearch qu.2) (mkHash fr.2)
    else none

/-- Parse an absolute address given as a string. -/
def parseURL (s : String) : Option URLParts := parseURLL s.data

/-- Keep a path up to and including its last slash. -/
def dropLastSegment (l : List Char) : List Char :=
  (l.reverse.dropWhile (fun c => c ≠ '/')).reverse

/-- Resolve a relative reference against an already parsed base, component
replacement in the style of the URL class (dot segments are kept as
written). -/
def resolveRel (b : URLParts) (href : String) : Option URLParts :=
  if b.hasAuthority = false then none
  else
    match href.data with
    | [] => some b
    | '/' :: '/' :: rest => parseURLL (b.scheme.data ++ ':' :: '/' :: '/' :: rest)
    | l =>
      let fr := splitAtFirst '#' l
      let newHash := mkHash fr.2
      match fr.1 with
      | [] => some { b with hash := newHash }
      | bq =>
        let qu := splitAtFirst '?' bq
        let newSearch := mkSearch qu.2
        match qu.1 with
        | [] => some { b with search := newSearch, hash := newHash }
        | '/' :: p =>
          some { b with pathname := String.mk ('/' :: p), search := newSearch, hash := newHash }
        | rel =>
          some { b with pathname := String.mk (dropLastSegment b.pathname.data ++ rel),
                        search := newSearch, hash := newHash }

/-- Parse a candidate reference against a base address string, as the
two-argument URL constructor does: the base must parse, and an absolute
candidate stands on its own. -/
def parseURLWith (href baseUrl : String) : Option URLParts :=
  match parseURL baseUrl with
  | none => none
  | some b =>
    match parseURL href with
    | some u => some u
    | none => resolveRel b href

/-- The origin of a parsed address: scheme, host and explicit port. -/
def urlOrigin (u : URLParts) : String :=
  u.scheme ++ "://" ++ u.host ++ (if u.port = "" then "" else ":" ++ u.port)

/- ── Route key normalisation (crawl.js routeKey) ────────────────────── -/

/-- The crawler's routeKey on character lists: a nonempty fragment is
normalised to a hash-style key, otherwise the pathname is used; trailing
slashes are stripped and the empty result is the root key. -/
def routeKeyL (l : List Char) : Option (List Char) :=
  match parseURLL l with
  | none => none
  | some u =>
    if 1 < u.hash.length then
      let hp := stripTrailingSlashesL (stripHashPfxL u.hash.data)
      if hp = [] then some ['/'] else some ('#' :: '/' :: hp)
    else
      let p := stripTrailingSlashesL u.pathname.data
      if p = [] then some ['/'] else some p

/-- The crawler's routeKey: canonical route identity of an address, or
none when the address does not parse. -/
def routeKey (urlStr : String) : Option String := (routeKeyL urlStr.data).map String.mk

/-- Replace the reserved characters question mark, ampersand and equals by
underscores. -/
def escapeReservedL (l : List Char) : List Char :=
  l.map (fun c => if c = '?' ∨ c = '&' ∨ c = '=' then '_' else c)

/-- Does the list end in the dot-html suffix? -/
def endsWithHtmlL (l : List Char) : Bool := startsWithL ".html".data.reverse l.reverse

/-- The crawler's routeToFilename on character lists. -/
def routeToFilenameL (key : List Char) : List Char :=
  let cleaned := stripTrailingSlashesL (stripOneLeadingSlashL (stripHashPfxL key))
  if cleaned = [] then "index.html".data
  else
    let esc := escapeReservedL cleaned
    if endsWithHtmlL esc then esc else esc ++ ".html".data

/-- The crawler's routeToFilename: map a route key to a relative file. -/
def routeToFilename (key : String) : String := String.mk (routeToFilenameL key.data)

/-- The crawler's isInternalUrl: resolve the candidate against the
configured base address and compare hostnames; parse failure is treated as
external. -/
def isInternalUrl (baseUrl href : String) : Bool :=
  match parseURLWith href baseUrl, parseURL baseUrl with
  | some u, some b => u.host == b.host
  | _, _ => false

/- ── Label handling (crawl.js labelToRouteKey and friends) ──────────── -/

/-- Known non-navigation label words tested case-insensitively as
substrings. -/
def skipLabelWords : List String :=
  ["collapse", "expand", "search", "close", "toggle", "menu", "hamburger", "settings"]

/-- Does a label match one of the skip patterns? -/
def matchesSkipPattern (label : String) : Bool :=
  skipLabelWords.any (fun w => containsSubL w.data (lowerL label.data))

/-- Strip a leading icon word: a run of lowercase letters or underscores
followed by whitespace is removed together with that whitespace. -/
def stripIconWordL (l : List Char) : List Char :=
  let a := l.takeWhile (fun c => c.isLower || c = '_')
  let rest := l.drop a.length
  match a, rest with
  | _ :: _, c :: t =>
    if c.isWhitespace then (c :: t).dropWhile (fun x => x.isWhitespace) else l
  | _, _ => l

/-- Strip a camel-case icon run: a leading run of lowercase letters or
underscores is removed when an uppercase letter follows it. -/
def stripCamelIconL (l : List Char) : List Char :=
  let a := l.takeWhile (fun c => c.isLower || c = '_')
  let rest := l.drop a.length
  match a, rest with
  | _ :: _, c :: t => if c.isUpper then c :: t else l
  | _, _ => l

/-- The label after icon-stripping, as computed inside labelToRouteKey:
strip a spaced icon word, trim, strip a camel-case icon run when no space
remains, and fall back to the trimmed label when everything vanished. -/
def labelIconStripped (label : String) : List Char :=
  let cleaned := trimL (stripIconWordL label.data)
  let cleaned2 := if cleaned.contains ' ' then cleaned else stripCamelIconL cleaned
  if cleaned2 = [] then trimL label.data else cleaned2

/-- Collapse runs of dashes to a single dash. -/
def collapseDashes : List Char → List Char
  | [] => []
  | [c] => [c]
  | c :: d :: t =>
    if c = '-' ∧ d = '-' then collapseDashes (d :: t) else c :: collapseDashes (d :: t)

/-- Strip at most one leading and one trailing dash. -/
def stripOneDashEnds (l : List Char) : List Char :=
  let l1 := match l with | '-' :: t => t | t => t
  match l1.reverse with
  | '-' :: t => t.reverse
  | _ => l1

/-- The slug conversion used by the crawler: lowercase, drop characters
outside lowercase letters, digits, whitespace and dashes, turn whitespace
runs into dashes, collapse dash runs, strip dashes at the ends. -/
def slugifyL (l : List Char) : List Char :=
  stripOneDashEnds (collapseDashes ((lowerL l).filterMap (fun c =>
    if c.isLower || c.isDigit || c = '-' then some c
    else if c.isWhitespace then some '-' else none)))

/-- The crawler's labelToRouteKey: derive a hash route key from a sidebar
label, rejecting known non-navigation labels and empty slugs. -/
def labelToRouteKey (label : String) : Option String :=
  if matchesSkipPattern label then none
  else
    let slug := slugifyL (labelIconStripped label)
    if slug = [] then none else some (String.mk ('#' :: '/' :: slug))

/-- Remove every occurrence of a word (case-insensitively) together with
surrounding whitespace, writing one space instead; fuel-driven recursion. -/
def replaceWordWsL (w : List Char) : Nat → List Char → List Char
  | 0, l => l
  | _ + 1, [] => []
  | fuel + 1, c :: t =>
    let ws1 := (c :: t).takeWhile (fun x => x.isWhitespace)
    let rest1 := (c :: t).drop ws1.length
    if startsWithL w (lowerL rest1) then
      let rest2 := rest1.drop w.length
      let ws2 := rest2.takeWhile (fun x => x.isWhitespace)
      ' ' :: replaceWordWsL w fuel (rest2.drop ws2.length)
    else
      c :: replaceWordWsL w fuel t

/-- Remove every whitespace-padded occurrence of a word from a label. -/
def replaceWordWs (w : String) (l : List Char) : List Char :=
  replaceWordWsL w.data l.length l

/-- The crawler's labelToComponentDetailRouteKey: strip status badges, then
slugify under the components listing. -/
def labelToComponentDetailRouteKey (label : String) : Option String :=
  let cleaned := trimL (replaceWordWs "new" (replaceWordWs "beta" (replaceWordWs "complete" label.data)))
  if cleaned = [] then none
  else
    let slug := slugifyL cleaned
    if slug = [] then none
    else some (String.mk ("#/components/".data ++ slug))

/-- The crawler's labelToSlug: the slug part of labelToRouteKey. -/
def labelToSlug (label : String) : Option (List Char) :=
  match labelToRouteKey label with
  | none => none
  | some k =>
    let s := stripOneTrailingSlashL (stripHashPfxL k.data)
    if s = [] then none else some s

/-- The crawler's deriveContentRouteKey: nest a label slug under the
originating key when a click changed only the content. -/
def deriveContentRouteKey (fromKey label : String) : Option String :=
  match labelToSlug label with
  | none => none
  | some slug =>
    let base := trimL (stripTrailingSlashesL ((if fromKey = "" then "/" else fromKey).data))
    let isHash := match base with | '#' :: _ => true | _ => false
    let path := stripTrailingSlashesL (stripHashPfxL base)
    if path = [] then
      some (String.mk ((if isHash then "#/" else "/").data ++ slug))
    else
      some (String.mk ((if isHash then "#/" else "/").data ++ path ++ '/' :: slug))

/-- The route-key decision of discoverAndCapture after a click settles
(crawl.js lines 662-677): an address change is authoritative, otherwise the
key is derived from the label according to the originating view. -/
def deriveClickKey (fromKey : String) (urlChanged : Bool) (urlAfter label : String) :
    Option String :=
  let isTopLevel := fromKey = "" ∨ fromKey = "/" ∨ fromKey = "#/" ∨ fromKey = "#"
  if urlChanged then routeKey urlAfter
  else if fromKey ≠ "" ∧ (fromKey = "#/components" ∨ fromKey = "/components") then
    (labelToComponentDetailRouteKey label).orElse (fun _ => labelToRouteKey label)
  else if isTopLevel then labelToRouteKey label
  else (deriveContentRouteKey fromKey label).orElse (fun _ => labelToRouteKey label)

/- ── The Capture Store and its insertion operations ─────────────────── -/

/-- The fields of a captured view the invariants speak about. -/
structure ViewRecord where
  key : String
  url : String
  title : String
  fingerprint : String
deriving Repr, DecidableEq

/-- The Capture Store: an insertion-ordered map from route key to record,
as a JavaScript Map is. -/
abbrev CaptureStore := List (String × ViewRecord)

/-- Does the store hold a record under the key? -/
def hasKey (s : CaptureStore) (k : String) : Bool := s.any (fun p => p.1 == k)

/-- JavaScript Map.set: overwrite in place when the key exists, append
otherwise. -/
def mapSet (s : CaptureStore) (k : String) (r : ViewRecord) : CaptureStore :=
  if hasKey s k then s.map (fun p => if p.1 == k then (k, r) else p)
  else s ++ [(k, r)]

/-- The duplicate-fingerprint test of the crawler: some existing record has
a truthy (nonempty) fingerprint equal to the candidate one. -/
def fpDup (s : CaptureStore) (fp : String) : Bool :=
  s.any (fun p => decide (p.2.fingerprint ≠ "") && p.2.fingerprint == fp)

/-- The landing-only fingerprint test of captureRoute: the landing record
exists, its fingerprint is truthy and equals the candidate one. -/
def landingFpMatch (s : CaptureStore) (fp : String) : Bool :=
  match s.find? (fun p => p.1 == "/") with
  | none => false
  | some p => decide (p.2.fingerprint ≠ "") && p.2.fingerprint == fp

/-- One insertion attempt of the crawl, carrying what the crawler computes
outside the store: the derived key (possibly none) and the captured record
with its fingerprint. -/
inductive CrawlEvent where
  /-- The guarded insert of the sidebar base-page loop in main. -/
  | sidebar (key : String) (rec : ViewRecord)
  /-- The guarded insert of the click loop in discoverAndCapture. -/
  | click (key : Option String) (rec : ViewRecord)
  /-- The insert of captureRoute for a queued address. -/
  | capture (key : Option String) (rec : ViewRecord)
deriving Repr, DecidableEq

/-- Apply one insertion attempt, with exactly the guards each call site of
the source performs before its set. -/
def applyEvent (s : CaptureStore) (e : CrawlEvent) : CaptureStore :=
  match e with
  | .sidebar k r =>
    if hasKey s k then s
    else if fpDup s r.fingerprint then s
    else mapSet s k r
  | .click k? r =>
    match k? with
    | none => s
    | some k =>
      if hasKey s k then s
      else if fpDup s r.fingerprint then s
      else mapSet s k r
  | .capture k? r =>
    match k? with
    | none => s
    | some k =>
      if hasKey s k then s
      else if k = "/" then s
      else if landingFpMatch s r.fingerprint then s
      else mapSet s k r

/-- A crawl as a sequence of insertion attempts after the unconditional
landing capture performed on the empty store. -/
def runCrawl (landing : ViewRecord) (evs : List CrawlEvent) : CaptureStore :=
  evs.foldl applyEvent (mapSet [] landing.key landing)

/-- No two records of the store share a key. -/
def keysUnique (s : CaptureStore) : Prop := (s.map (fun p => p.1)).Nodup

/-- No two records of the store share a truthy (nonempty) fingerprint. -/
def fpsUnique (s : CaptureStore) : Prop :=
  s.Pairwise (fun a b => a.2.fingerprint = "" ∨ a.2.fingerprint ≠ b.2.fingerprint)

instance (s : CaptureStore) : Decidable (keysUnique s) := by
  unfold keysUnique; infer_instance

instance (s : CaptureStore) : Decidable (fpsUnique s) := by
  unfold fpsUnique
  exact List.instDecidablePairwise s

/- ── The main loop with its page budget (crawl.js main) ─────────────── -/

/-- A seeded sidebar base page along with the outcomes of the clicks made
while crawling its children. -/
structure SeedItem where
  key : String
  record : ViewRecord
  clickWorked : Bool
  contentChanged : Bool
  clicks : List (Option String × ViewRecord)
deriving Repr, DecidableEq

/-- The click-capture loop of discoverAndCapture: one guarded click insert
per collected label; the source performs no page-budget check here. -/
def discoverAndCaptureSim (s : CaptureStore) (clicks : List (Option String × ViewRecord)) :
    CaptureStore :=
  clicks.foldl (fun st c => applyEvent st (.click c.1 c.2)) s

/-- The body of the sidebar loop of main for one seeded item: skip when the
key is captured, the click failed, the content did not change or the
fingerprint duplicates; otherwise capture and, when the store is still
below the budget, crawl the children. -/
def runSeedItem (maxPages : Nat) (s : CaptureStore) (it : SeedItem) : CaptureStore :=
  if hasKey s it.key then s
  else if it.clickWorked = false then s
  else if it.contentChanged = false then s
  else if fpDup s it.record.fingerprint then s
  else
    let s1 := mapSet s it.key it.record
    if s1.length < maxPages then discoverAndCaptureSim s1 it.clicks else s1

/-- The sidebar loop of main: the budget is checked at the top of each
iteration and the loop breaks when the store has reached it. -/
def runSeeds (maxPages : Nat) (s : CaptureStore) : List SeedItem → CaptureStore
  | [] => s
  | it :: rest =>
    if maxPages ≤ s.length then s
    else runSeeds maxPages (runSeedItem maxPages s it) rest

/-- A whole run of main: the landing page is captured unconditionally on
the empty store, then the seeded items are processed. -/
def runMain (maxPages : Nat) (landing : ViewRecord) (items : List SeedItem) : CaptureStore :=
  runSeeds maxPages (mapSet [] landing.key landing) items

/- ── Hyperlink discovery (crawl.js discoverAndCapture, step 1) ──────── -/

/-- The discovery bookkeeping next to the Capture Store: the set of seen
route keys and the queue of new route addresses. -/
structure DiscState where
  discovered : List String
  queue : List String
deriving Repr, DecidableEq

/-- Everything before the first hash mark of an address. -/
def stripFragmentStr (s : String) : String := String.mk (splitAtFirst '#' s.data).1

/-- Assigning a raw fragment reference to the hash of the base address, as
the crawler does before reading the resulting href back. -/
def setHash (baseUrl rawHref : String) : String := stripFragmentStr baseUrl ++ rawHref

/-- Record one discovered route. -/
def addRoute (st : DiscState) (k u : String) : DiscState :=
  ⟨st.discovered ++ [k], st.queue ++ [u]⟩

/-- One iteration of the href-scanning loop of discoverAndCapture: fragment
references are rebased onto the configured address, other references must
be internal; a failed normalisation discards the candidate. -/
def processHref (baseUrl : String) (captured : CaptureStore) (st : DiscState)
    (href rawHref : String) : DiscState :=
  if rawHref ≠ "" ∧ strStartsWith rawHref "#" = true then
    let fullUrl := setHash baseUrl rawHref
    match routeKey fullUrl with
    | none => st
    | some k =>
      if k ∈ st.discovered ∨ hasKey captured k then st else addRoute st k fullUrl
  else if href ≠ "" ∧ isInternalUrl baseUrl href = true then
    match routeKey href with
    | none => st
    | some k =>
      if k ∈ st.discovered ∨ hasKey captured k then st else addRoute st k href
  else st

/- ── Link rewriting (crawl.js rewriteLinks) ─────────────────────────── -/

/-- JavaScript path.dirname restricted to the relative file names the
crawler produces. -/
def pathDirname (p : String) : String :=
  match splitAtLast '/' p.data with
  | (_, none) => "."
  | (d, some _) => String.mk d

/-- Drop the common leading segments of two segment lists. -/
def dropCommonPfx : List (List Char) → List (List Char) → List (List Char) × List (List Char)
  | a :: as, b :: bs => if a = b then dropCommonPfx as bs else (a :: as, b :: bs)
  | as, bs => (as, bs)

/-- Join segments with slashes. -/
def joinSlash : List (List Char) → List Char
  | [] => []
  | [a] => a
  | a :: b :: t => a ++ '/' :: joinSlash (b :: t)

/-- JavaScript path.relative restricted to the dot-free relative paths the
crawler produces: walk up from the source directory, then down. -/
def pathRelative (fromDir toPath : String) : String :=
  let fb := if fromDir = "." then [] else fromDir.data.splitOn '/'
  let tb := toPath.data.splitOn '/'
  let p := dropCommonPfx fb tb
  String.mk (joinSlash (p.1.map (fun _ => "..".data) ++ p.2))

/-- The relative reference the rewriter writes for a captured key, seen
from the page of the current key. -/
def relHref (currentKey key : String) : String :=
  let rel := pathRelative (pathDirname (routeToFilename currentKey)) (routeToFilename key)
  if strStartsWith rel "." then rel else "./" ++ rel

/-- The no-slash shorthand of a hash key, as the crawler's replace of the
first hash-slash by a bare hash mark. -/
def noSlashKey (key : String) : String :=
  String.mk (replaceFirstL "#/".data "#".data key.data)

/-- The reference forms the rewriter replaces for one captured key: a hash
key is matched as itself and as its no-slash shorthand; a path key is
matched as itself, with a trailing slash, and in the absolute address forms
recorded for that key in the store. -/
def hrefPatterns (store : CaptureStore) (key : String) : List String :=
  if strStartsWith key "#" then [key, noSlashKey key]
  else
    [key, key ++ "/"] ++
      (store.filter (fun p => routeKey p.2.url == some key)).foldr
        (fun p acc => p.2.url :: (p.2.url ++ "/") :: acc) []

/-- The rewrite of one reference token: the source iterates over the
captured keys and replaces every occurrence of each key's reference forms
by the relative path to that key's file. -/
def rewriteToken (store : CaptureStore) (currentKey t : String) : String :=
  store.foldl (fun acc p => if acc ∈ hrefPatterns store p.1 then relHref currentKey p.1 else acc) t

/-- The rewriter over the reference tokens of a page's markup. -/
def rewriteLinks (store : CaptureStore) (currentKey : String) (hrefTokens : List String) :
    List String :=
  hrefTokens.map (rewriteToken store currentKey)

/- ── Predicates and concrete instances used by the theorems ─────────── -/

/-- Host characters admitted by the general theorems about bare origins. -/
def isHostChar (c : Char) : Bool := c.isLower || c.isDigit || c = '.' || c = '-'

/-- A valid host for the general theorems: nonempty, host characters only. -/
def validHostL (l : List Char) : Bool := !l.isEmpty && l.all isHostChar

/-- The shape the specification asserts of normalised keys: the bare root
key, or a hash-rooted or slash-rooted key with a nonempty path and no
trailing slash. -/
def keyShapeOk (k : String) : Bool :=
  k == "/" ||
  (strStartsWith k "#/" && decide (2 < k.length) && decide (k.data.getLast? ≠ some '/')) ||
  (strStartsWith k "/" && decide (1 < k.length) && decide (k.data.getLast? ≠ some '/'))

/-- The address the crawler builds when it appends a route key to the
configured base address: the base with one trailing slash stripped,
followed by the key. -/
def appendKey (baseUrl key : String) : String :=
  String.mk (stripOneTrailingSlashL baseUrl.data) ++ key

/-- Is the event the address-based insert of captureRoute? -/
def CrawlEvent.isCapture : CrawlEvent → Bool
  | .capture _ _ => true
  | _ => false

/-- A normal route-key tail for the file-naming analysis: nonempty, no
slash at either end, no reserved characters, not already ending in
dot-html. -/
def normalKeyTail (p : String) : Bool :=
  !p.data.isEmpty && p.data.head? != some '/' && p.data.getLast? != some '/'
  && p.data.all (fun c => !(c == '?' || c == '&' || c == '=')) && !endsWithHtmlL p.data

/-- Stores whose keys and recorded addresses do not start with a dot, as
produced by routeKey and by absolute page addresses. -/
def storeKeysAbsolute (store : CaptureStore) : Prop :=
  ∀ p ∈ store, strStartsWith p.1 "." = false ∧ strStartsWith p.2.url "." = false

instance (store : CaptureStore) : Decidable (storeKeysAbsolute store) := by
  unfold storeKeysAbsolute; infer_instance

/-- A concrete view record. -/
def mkRec (k u fp : String) : ViewRecord := ⟨k, u, "T", fp⟩

/-- Landing record of the concrete duplicate-fingerprint run. -/
def c1landing : ViewRecord := mkRec "/" "https://site.example/" "A|||a"

/-- Click-captured record of the concrete duplicate-fingerprint run. -/
def c1clickRec : ViewRecord := mkRec "#/x" "https://site.example/#/x" "B|||b"

/-- Address-captured record repeating the click record's fingerprint. -/
def c1captureRec : ViewRecord := mkRec "#/y" "https://site.example/#/y" "B|||b"

/-- A concrete two-record store for the rewriter theorems. -/
def c2store : CaptureStore :=
  [("/", mkRec "/" "https://site.example/" "A|||a"),
   ("#/colors", mkRec "#/colors" "https://site.example/#/colors" "B|||b")]

/-- Landing record of the concrete budget runs. -/
def c3landing : ViewRecord := mkRec "/" "https://site.example/" "f1|||"

/-- Three successful clicks used to overrun the page budget. -/
def c3clicks : List (Option String × ViewRecord) :=
  [(some "#/a", mkRec "#/a" "https://site.example/#/a" "f3|||"),
   (some "#/b", mkRec "#/b" "https://site.example/#/b" "f4|||"),
   (some "#/c", mkRec "#/c" "https://site.example/#/c" "f5|||")]

/-- A seeded base page whose child crawl captures three further views. -/
def c3bigSeed : SeedItem :=
  ⟨"#/colors", mkRec "#/colors" "https://site.example/#/colors" "f2|||", true, true, c3clicks⟩

/-- A capturable seeded base page with no child clicks. -/
def c3seed (k fp : String) : SeedItem :=
  ⟨k, mkRec k ("https://site.example" ++ k) fp, true, true, []⟩

/- ── Lemmas about the character-list utilities ──────────────────────── -/

theorem splitAtFirst_not_mem {c : Char} : ∀ {l : List Char}, c ∉ l →
    splitAtFirst c l = (l, none)
  | [], _ => rfl
  | a :: t, h => by
    have h1 : ¬ a = c := fun he => h (by simp [he])
    have h2 : c ∉ t := fun hm => h (List.mem_cons_of_mem _ hm)
    simp [splitAtFirst, h1, splitAtFirst_not_mem h2]

theorem splitAtFirst_append {c : Char} : ∀ {pre : List Char} (post : List Char), c ∉ pre →
    splitAtFirst c (pre ++ c :: post) = (pre, some post)
  | [], post, _ => by simp [splitAtFirst]
  | a :: t, post, h => by
    have h1 : ¬ a = c := fun he => h (by simp [he])
    have h2 : c ∉ t := fun hm => h (List.mem_cons_of_mem _ hm)
    simp [splitAtFirst, h1, splitAtFirst_append post h2]

theorem splitAtFirst_fst_not_mem (c : Char) : ∀ (l : List Char), c ∉ (splitAtFirst c l).1
  | [] => by simp [splitAtFirst]
  | a :: t => by
    by_cases ha : a = c
    · simp [splitAtFirst, ha]
    · have ih := splitAtFirst_fst_not_mem c t
      simp only [splitAtFirst, if_neg ha]
      simp only [List.mem_cons, not_or]
      exact ⟨fun he => ha he.symm, ih⟩

theorem splitAtFirst_fst_mem {c x : Char} : ∀ {l : List Char},
    x ∈ (splitAtFirst c l).1 → x ∈ l
  | [], h => by simp [splitAtFirst] at h
  | a :: t, h => by
    by_cases ha : a = c
    · simp [splitAtFirst, ha] at h
    · simp only [splitAtFirst, if_neg ha, List.mem_cons] at h
      rcases h with h | h
      · simp [h]
      · exact List.mem_cons_of_mem _ (splitAtFirst_fst_mem h)

theorem splitAtFirst_snd_mem {c x : Char} : ∀ {l b : List Char},
    (splitAtFirst c l).2 = some b → x ∈ b → x ∈ l
  | [], b, hb, _ => by simp [splitAtFirst] at hb
  | a :: t, b, hb, hx => by
    by_cases ha : a = c
    · simp only [splitAtFirst, if_pos ha] at hb
      cases hb
      exact List.mem_cons_of_mem _ hx
    · simp only [splitAtFirst, if_neg ha] at hb
      exact List.mem_cons_of_mem _ (splitAtFirst_snd_mem hb hx)

theorem head_dropWhile_not (p : Char → Bool) : ∀ (l : List Char) {c : Char},
    (l.dropWhile p).head? = some c → p c = false
  | [], c, h => by simp at h
  | a :: t, c, h => by
    by_cases pa : p a = true
    · rw [List.dropWhile_cons, if_pos pa] at h
      exact head_dropWhile_not p t h
    · rw [List.dropWhile_cons, if_neg pa] at h
      simp only [List.head?_cons, Option.some.injEq] at h
      subst h
      exact Bool.eq_false_iff.mpr pa

theorem dropWhile_eq_self_of_head (p : Char → Bool) (l : List Char)
    (h : ∀ c, l.head? = some c → p c = false) : l.dropWhile p = l := by
  cases l with
  | nil => rfl
  | cons a t =>
    rw [List.dropWhile_cons, if_neg]
    simp [h a rfl]

theorem dropTrailing_append_eq (p : Char → Bool) (l : List Char) :
    dropTrailing p l ++ (l.reverse.takeWhile p).reverse = l := by
  unfold dropTrailing
  rw [← List.reverse_append, List.takeWhile_append_dropWhile, List.reverse_reverse]

theorem dropTrailing_getLast_not (p : Char → Bool) (l : List Char) {c : Char}
    (h : (dropTrailing p l).getLast? = some c) : p c = false := by
  unfold dropTrailing at h
  rw [List.getLast?_reverse] at h
  exact head_dropWhile_not p l.reverse h

theorem dropTrailing_eq_self (p : Char → Bool) (l : List Char)
    (h : ∀ c, l.getLast? = some c → p c = false) : dropTrailing p l = l := by
  unfold dropTrailing
  rw [dropWhile_eq_self_of_head p l.reverse, List.reverse_reverse]
  intro c hc
  exact h c (by rwa [List.head?_reverse] at hc)

theorem dropTrailing_idem (p : Char → Bool) (l : List Char) :
    dropTrailing p (dropTrailing p l) = dropTrailing p l :=
  dropTrailing_eq_self p _ (fun _ hc => dropTrailing_getLast_not p l hc)

theorem startsWithL_iff : ∀ (pat l : List Char), startsWithL pat l = true ↔ ∃ t, l = pat ++ t
  | [], l => by simp [startsWithL]
  | a :: ta, [] => by
    simp only [startsWithL, Bool.false_eq_true, false_iff, not_exists]
    intro t h
    simp at h
  | a :: ta, b :: tb => by
    simp only [startsWithL, Bool.and_eq_true, decide_eq_true_eq]
    rw [startsWithL_iff ta tb]
    constructor
    · rintro ⟨hab, t, rfl⟩
      exact ⟨t, by rw [hab]; rfl⟩
    · rintro ⟨t, he⟩
      injection he with h1 h2
      exact ⟨h1.symm, t, h2⟩

/- ── Character-class and parser lemmas ──────────────────────────────── -/

theorem validSchemeL_chars {s : List Char} (h : validSchemeL s = true) :
    ∀ c ∈ s, isSchemeChar c = true := by
  unfold validSchemeL at h
  cases s with
  | nil => cases h
  | cons a t =>
    simp only [Bool.and_eq_true, List.all_eq_true] at h
    exact h.2

theorem not_mem_of_scheme {s : List Char} (h : validSchemeL s = true) {c : Char}
    (hc : isSchemeChar c = false) : c ∉ s := by
  intro hm
  rw [validSchemeL_chars h c hm] at hc
  cases hc

theorem validHostL_chars {h : List Char} (hh : validHostL h = true) :
    ∀ c ∈ h, isHostChar c = true := by
  unfold validHostL at hh
  simp only [Bool.and_eq_true, List.all_eq_true] at hh
  exact hh.2

theorem not_mem_of_host {h : List Char} (hh : validHostL h = true) {c : Char}
    (hc : isHostChar c = false) : c ∉ h := by
  intro hm
  rw [validHostL_chars hh c hm] at hc
  cases hc

theorem validHostL_ne_nil {h : List Char} (hh : validHostL h = true) : h ≠ [] := by
  unfold validHostL at hh
  simp only [Bool.and_eq_true] at hh
  intro he
  rw [he] at hh
  cases hh.1

theorem splitAtLast_not_mem {c : Char} {l : List Char} (h : c ∉ l) :
    splitAtLast c l = (l, none) := by
  unfold splitAtLast
  rw [splitAtFirst_not_mem (by rwa [List.mem_reverse])]

theorem parseAuthority_host {scheme h : List Char} (hh : validHostL h = true) :
    parseAuthority scheme h = some (h, []) := by
  have hha : '@' ∉ h := not_mem_of_host hh (by decide)
  have hhc : ':' ∉ h := not_mem_of_host hh (by decide)
  simp only [parseAuthority, splitAtLast_not_mem hha, splitAtLast_not_mem hhc]
  simp [validHostL_ne_nil hh]

theorem parseURLL_origin_path (sch h q : List Char) (hs : validSchemeL sch = true)
    (hh : validHostL h = true) (hq1 : '#' ∉ q) (hq2 : '?' ∉ q) :
    parseURLL (sch ++ ':' :: '/' :: '/' :: (h ++ '/' :: q)) =
      some ⟨String.mk (lowerL sch), true, String.mk (lowerL h), "",
            String.mk ('/' :: q), "", ""⟩ := by
  have hsh : '#' ∉ sch := not_mem_of_scheme hs (by decide)
  have hsq : '?' ∉ sch := not_mem_of_scheme hs (by decide)
  have hsc : ':' ∉ sch := not_mem_of_scheme hs (by decide)
  have hhh : '#' ∉ h := not_mem_of_host hh (by decide)
  have hhq : '?' ∉ h := not_mem_of_host hh (by decide)
  have hhs : '/' ∉ h := not_mem_of_host hh (by decide)
  have hnof : '#' ∉ sch ++ ':' :: '/' :: '/' :: (h ++ '/' :: q) := by
    simp only [List.mem_append, List.mem_cons, not_or]
    exact ⟨hsh, by decide, by decide, by decide, hhh, by decide, hq1⟩
  have hnoq : '?' ∉ sch ++ ':' :: '/' :: '/' :: (h ++ '/' :: q) := by
    simp only [List.mem_append, List.mem_cons, not_or]
    exact ⟨hsq, by decide, by decide, by decide, hhq, by decide, hq2⟩
  simp only [parseURLL, splitAtFirst_not_mem hnof, splitAtFirst_not_mem hnoq,
    splitAtFirst_append ('/' :: '/' :: (h ++ '/' :: q)) hsc, if_pos hs, parseAfterScheme,
    splitAtFirst_append q hhs, parseAuthority_host hh]
  simp [mkPathname, mkSearch, mkHash]

theorem parseURLL_origin_frag (sch h f : List Char) (hs : validSchemeL sch = true)
    (hh : validHostL h = true) :
    parseURLL (sch ++ ':' :: '/' :: '/' :: (h ++ '#' :: f)) =
      some ⟨String.mk (lowerL sch), true, String.mk (lowerL h), "", "/", "",
            mkHash (some f)⟩ := by
  have hsh : '#' ∉ sch := not_mem_of_scheme hs (by decide)
  have hsq : '?' ∉ sch := not_mem_of_scheme hs (by decide)
  have hsc : ':' ∉ sch := not_mem_of_scheme hs (by decide)
  have hhh : '#' ∉ h := not_mem_of_host hh (by decide)
  have hhq : '?' ∉ h := not_mem_of_host hh (by decide)
  have hhs : '/' ∉ h := not_mem_of_host hh (by decide)
  have hre : sch ++ ':' :: '/' :: '/' :: (h ++ '#' :: f) =
      (sch ++ ':' :: '/' :: '/' :: h) ++ '#' :: f := by simp
  have hnof : '#' ∉ sch ++ ':' :: '/' :: '/' :: h := by
    simp only [List.mem_append, List.mem_cons, not_or]
    exact ⟨hsh, by decide, by decide, by decide, hhh⟩
  have hnoq : '?' ∉ sch ++ ':' :: '/' :: '/' :: h := by
    simp only [List.mem_append, List.mem_cons, not_or]
    exact ⟨hsq, by decide, by decide, by decide, hhq⟩
  rw [hre]
  simp only [parseURLL, splitAtFirst_append f hnof, splitAtFirst_not_mem hnoq,
    splitAtFirst_append ('/' :: '/' :: h) hsc, if_pos hs, parseAfterScheme,
    splitAtFirst_not_mem hhs, parseAuthority_host hh]
  simp [mkPathname, mkSearch]

theorem parseURLL_origin_path_frag (sch h q f : List Char) (hs : validSchemeL sch = true)
    (hh : validHostL h = true) (hq1 : '#' ∉ q) (hq2 : '?' ∉ q) :
    parseURLL (sch ++ ':' :: '/' :: '/' :: (h ++ '/' :: (q ++ '#' :: f))) =
      some ⟨String.mk (lowerL sch), true, String.mk (lowerL h), "",
            String.mk ('/' :: q), "", mkHash (some f)⟩ := by
  have hsh : '#' ∉ sch := not_mem_of_scheme hs (by decide)
  have hsq : '?' ∉ sch := not_mem_of_scheme hs (by decide)
  have hsc : ':' ∉ sch := not_mem_of_scheme hs (by decide)
  have hhh : '#' ∉ h := not_mem_of_host hh (by decide)
  have hhq : '?' ∉ h := not_mem_of_host hh (by decide)
  have hhs : '/' ∉ h := not_mem_of_host hh (by decide)
  have hre : sch ++ ':' :: '/' :: '/' :: (h ++ '/' :: (q ++ '#' :: f)) =
      (sch ++ ':' :: '/' :: '/' :: (h ++ '/' :: q)) ++ '#' :: f := by simp
  have hnof : '#' ∉ sch ++ ':' :: '/' :: '/' :: (h ++ '/' :: q) := by
    simp only [List.mem_append, List.mem_cons, not_or]
    exact ⟨hsh, by decide, by decide, by decide, hhh, by decide, hq1⟩
  have hnoq : '?' ∉ sch ++ ':' :: '/' :: '/' :: (h ++ '/' :: q) := by
    simp only [List.mem_append, List.mem_cons, not_or]
    exact ⟨hsq, by decide, by decide, by decide, hhq, by decide, hq2⟩
  rw [hre]
  simp only [parseURLL, splitAtFirst_append f hnof, splitAtFirst_not_mem hnoq,
    splitAtFirst_append ('/' :: '/' :: (h ++ '/' :: q)) hsc, if_pos hs, parseAfterScheme,
    splitAtFirst_append q hhs, parseAuthority_host hh]
  simp [mkPathname, mkSearch]

theorem routeKeyL_eq_of_parse {l : List Char} {u : URLParts} (hu : parseURLL l = some u) :
    routeKeyL l =
      (if 1 < u.hash.length then
        (if stripTrailingSlashesL (stripHashPfxL u.hash.data) = [] then some ['/']
         else some ('#' :: '/' :: stripTrailingSlashesL (stripHashPfxL u.hash.data)))
      else
        (if stripTrailingSlashesL u.pathname.data = [] then some ['/']
         else some (stripTrailingSlashesL u.pathname.data))) := by
  unfold routeKeyL
  rw [hu]

theorem parseURLL_pathname_shape {l : List Char} {u : URLParts}
    (h : parseURLL l = some u) (ha : u.hasAuthority = true) :
    ∃ t, u.pathname.data = '/' :: t ∧ ∀ x ∈ t, x ≠ '#' ∧ x ≠ '?' := by
  simp only [parseURLL] at h
  split at h
  · cases h
  · rename_i rest hsc
    split at h
    · have hmemrest : ∀ x ∈ rest, x ≠ '#' ∧ x ≠ '?' := by
        intro x hx
        have hq : x ∈ (splitAtFirst '?' (splitAtFirst '#' l).1).1 :=
          splitAtFirst_snd_mem hsc hx
        have hf : x ∈ (splitAtFirst '#' l).1 := splitAtFirst_fst_mem hq
        constructor
        · intro he; rw [he] at hf; exact splitAtFirst_fst_not_mem '#' _ hf
        · intro he; rw [he] at hq; exact splitAtFirst_fst_not_mem '?' _ hq
      rcases rest with _ | ⟨c, _ | ⟨d, after⟩⟩
      · simp only [parseAfterScheme, Option.some.injEq] at h
        rw [← h] at ha
        cases ha
      · simp only [parseAfterScheme, Option.some.injEq] at h
        rw [← h] at ha
        cases ha
      · by_cases hcd : c = '/' ∧ d = '/'
        · obtain ⟨hc, hd⟩ := hcd
          subst hc; subst hd
          simp only [parseAfterScheme] at h
          rw [if_pos (⟨trivial, trivial⟩ : True ∧ True)] at h
          cases hpa : parseAuthority (lowerL (splitAtFirst ':'
              (splitAtFirst '?' (splitAtFirst '#' l).1).1).1) (splitAtFirst '/' after).1 with
          | none => rw [hpa] at h; cases h
          | some hp =>
            rw [hpa] at h
            simp only [Option.some.injEq] at h
            cases hau : (splitAtFirst '/' after).2 with
            | none =>
              rw [hau] at h
              rw [← h]
              exact ⟨[], rfl, by simp⟩
            | some p =>
              rw [hau] at h
              rw [← h]
              refine ⟨p, rfl, ?_⟩
              intro x hx
              have : x ∈ after := splitAtFirst_snd_mem hau hx
              exact hmemrest x (List.mem_cons_of_mem _ (List.mem_cons_of_mem _ this))
        · simp only [parseAfterScheme, if_neg hcd, Option.some.injEq] at h
          rw [← h] at ha
          cases ha
    · cases h

theorem routeKeyL_shape {l : List Char} {u : URLParts} {k : List Char}
    (hu : parseURLL l = some u) (ha : u.hasAuthority = true) (hk : routeKeyL l = some k) :
    k = ['/'] ∨ ∃ p, p ≠ [] ∧ p.getLast? ≠ some '/' ∧
      (k = '#' :: '/' :: p ∨ (k = '/' :: p ∧ ∀ x ∈ p, x ≠ '#' ∧ x ≠ '?')) := by
  rw [routeKeyL_eq_of_parse hu] at hk
  by_cases hlen : 1 < u.hash.length
  · rw [if_pos hlen] at hk
    by_cases hnil : stripTrailingSlashesL (stripHashPfxL u.hash.data) = []
    · rw [if_pos hnil] at hk
      simp only [Option.some.injEq] at hk
      exact Or.inl hk.symm
    · rw [if_neg hnil] at hk
      simp only [Option.some.injEq] at hk
      right
      refine ⟨stripTrailingSlashesL (stripHashPfxL u.hash.data), hnil, ?_, Or.inl hk.symm⟩
      intro hl
      have := dropTrailing_getLast_not (fun c => c = '/') (stripHashPfxL u.hash.data) hl
      simp at this
  · rw [if_neg hlen] at hk
    obtain ⟨t, hpt, hchars⟩ := parseURLL_pathname_shape hu ha
    by_cases hnil : stripTrailingSlashesL u.pathname.data = []
    · rw [if_pos hnil] at hk
      simp only [Option.some.injEq] at hk
      exact Or.inl hk.symm
    · rw [if_neg hnil] at hk
      simp only [Option.some.injEq] at hk
      have happ := dropTrailing_append_eq (fun c => c = '/') u.pathname.data
      have hlast : (stripTrailingSlashesL u.pathname.data).getLast? ≠ some '/' := by
        intro hl
        have := dropTrailing_getLast_not (fun c => c = '/') u.pathname.data hl
        simp at this
      rcases hsp : stripTrailingSlashesL u.pathname.data with _ | ⟨a, p2⟩
      · exact absurd hsp hnil
      · have happ2 : (a :: p2) ++ (u.pathname.data.reverse.takeWhile (fun c => c = '/')).reverse
            = '/' :: t := by
          rw [← hsp]
          show stripTrailingSlashesL u.pathname.data ++ _ = _
          unfold stripTrailingSlashesL
          rw [happ, hpt]
        have ha2 : a = '/' := by
          have := happ2
          rw [List.cons_append] at this
          injection this with h1 _
        have hp2t : p2 ++ (u.pathname.data.reverse.takeWhile (fun c => c = '/')).reverse = t := by
          have := happ2
          rw [List.cons_append] at this
          injection this with _ h2
        rw [hsp] at hlast
        have hp2nil : p2 ≠ [] := by
          intro he
          rw [he, ha2] at hlast
          simp at hlast
        right
        refine ⟨p2, hp2nil, ?_, Or.inr ⟨by rw [← hk, hsp, ha2], ?_⟩⟩
        · intro hl
          apply hlast
          rcases p2 with _ | ⟨b, p3⟩
          · exact absurd rfl hp2nil
          · rw [List.getLast?_cons_cons]
            exact hl
        · intro x hx
          apply hchars
          rw [← hp2t]
          exact List.mem_append_left _ hx

theorem routeKey_eq_some_iff {s k : String} :
    routeKey s = some k ↔ routeKeyL s.data = some k.data := by
  unfold routeKey
  rw [Option.map_eq_some']
  constructor
  · rintro ⟨a, ha, rfl⟩
    rw [ha]
  · intro h
    exact ⟨k.data, h, rfl⟩

theorem stripTrailingSlashes_eq_self {l : List Char} (h : l.getLast? ≠ some '/') :
    stripTrailingSlashesL l = l := by
  unfold stripTrailingSlashesL
  refine dropTrailing_eq_self _ _ (fun c hc => ?_)
  have hne : c ≠ '/' := fun he => h (he ▸ hc)
  simp [hne]

theorem keyShapeOk_of_shape {k : String}
    (h : k.data = ['/'] ∨ ∃ p, p ≠ [] ∧ p.getLast? ≠ some '/' ∧
      (k.data = '#' :: '/' :: p ∨ (k.data = '/' :: p ∧ ∀ x ∈ p, x ≠ '#' ∧ x ≠ '?'))) :
    k ≠ "" ∧ keyShapeOk k = true := by
  rcases h with h | ⟨p, hp, hl, h | ⟨h, _⟩⟩
  · have hk : k = "/" := String.ext (by rw [h])
    rw [hk]
    exact ⟨by decide, by decide⟩
  · constructor
    · intro he
      rw [he] at h
      cases h
    · unfold keyShapeOk
      rw [Bool.or_eq_true, Bool.or_eq_true]
      left; right
      rw [Bool.and_eq_true, Bool.and_eq_true]
      refine ⟨⟨?_, ?_⟩, ?_⟩
      · unfold strStartsWith
        rw [h]
        simp [startsWithL]
      · rw [decide_eq_true_eq]
        have hlen : k.length = k.data.length := rfl
        have hplen : 0 < p.length := List.length_pos.mpr hp
        rw [hlen, h]
        simp only [List.length_cons]
        omega
      · rw [decide_eq_true_eq, h, List.getLast?_cons_cons]
        rcases p with _ | ⟨b, p3⟩
        · exact absurd rfl hp
        · rw [List.getLast?_cons_cons]
          exact hl
  · constructor
    · intro he
      rw [he] at h
      cases h
    · unfold keyShapeOk
      rw [Bool.or_eq_true]
      right
      rw [Bool.and_eq_true, Bool.and_eq_true]
      refine ⟨⟨?_, ?_⟩, ?_⟩
      · unfold strStartsWith
        rw [h]
        simp [startsWithL]
      · rw [decide_eq_true_eq]
        have hlen : k.length = k.data.length := rfl
        have hplen : 0 < p.length := List.length_pos.mpr hp
        rw [hlen, h]
        simp only [List.length_cons]
        omega
      · rw [decide_eq_true_eq, h]
        rcases p with _ | ⟨b, p3⟩
        · exact absurd rfl hp
        · rw [List.getLast?_cons_cons]
          exact hl

/-- C10, counterexample: routeKey succeeds on the opaque-path address
mailto:team@site.example (the URL class accepts it) and returns a key that
is neither the root key nor hash-rooted nor slash-rooted, refuting the
claimed shape for every successfully normalised address. -/
theorem C10_counterexample :
    routeKey "mailto:team@site.example" = some "team@site.example" ∧
    keyShapeOk "team@site.example" = false := by decide

/-- C10, amended: for every address that parses with an authority component
(http-style addresses), a successful routeKey yields a key that is exactly
the root key, or begins with a hash-slash or a slash followed by a nonempty
path; it is never empty and never ends in a trailing slash. -/
theorem C10_routeKey_shape (a k : String) (u : URLParts)
    (hu : parseURL a = some u) (ha : u.hasAuthority = true)
    (hk : routeKey a = some k) :
    k ≠ "" ∧ keyShapeOk k = true :=
  keyShapeOk_of_shape (routeKeyL_shape hu ha (routeKey_eq_some_iff.mp hk))

/-- C10, witness: the shape theorem applied to a concrete hash address. -/
theorem C10_routeKey_shape_witness :
    ("#/colors" : String) ≠ "" ∧ keyShapeOk "#/colors" = true :=
  C10_routeKey_shape "https://site.example/#/colors" "#/colors"
    ⟨"https", true, "site.example", "", "/", "", "#/colors"⟩ (by decide) rfl (by decide)

/-- C4, counterexample: normalization succeeds on the opaque address
mailto:team@site.example with key team@site.example, but appending that key
to the site base address and re-normalizing yields the root key instead of
the original key, refuting the claimed idempotent round trip for every
address on which normalization succeeds. -/
theorem C4_counterexample :
    routeKey "mailto:team@site.example" = some "team@site.example" ∧
    appendKey "https://site.example/" "team@site.example" =
      "https://site.exampleteam@site.example" ∧
    routeKey (appendKey "https://site.example/" "team@site.example") = some "/" ∧
    ("/" : String) ≠ "team@site.example" := by decide

/-- C4, amended: for every address that parses with an authority component
and produces key k, when the configured base address is a bare origin
(scheme://host up to one trailing slash), re-normalizing the address formed
by appending k to the base yields k again. -/
theorem C4_routeKey_roundtrip (a base sch host k : String) (u : URLParts)
    (hu : parseURL a = some u) (ha : u.hasAuthority = true)
    (hs : validSchemeL sch.data = true) (hh : validHostL host.data = true)
    (hb : stripOneTrailingSlashL base.data = sch.data ++ ':' :: '/' :: '/' :: host.data)
    (hk : routeKey a = some k) :
    routeKey (appendKey base k) = some k := by
  have hdata : (appendKey base k).data =
      sch.data ++ ':' :: '/' :: '/' :: (host.data ++ k.data) := by
    show (String.mk (stripOneTrailingSlashL base.data) ++ k).data = _
    have hmkd : (String.mk (stripOneTrailingSlashL base.data)).data =
        stripOneTrailingSlashL base.data := rfl
    rw [String.data_append, hmkd, hb]
    simp only [List.append_assoc, List.cons_append]
  rw [routeKey_eq_some_iff, hdata]
  rcases routeKeyL_shape hu ha (routeKey_eq_some_iff.mp hk) with
    hroot | ⟨p, hp, hlast, hcase | ⟨hcase, hchars⟩⟩
  · rw [hroot]
    have hparse := parseURLL_origin_path sch.data host.data [] hs hh
      (by simp) (by simp)
    rw [routeKeyL_eq_of_parse hparse]
    simp [stripTrailingSlashesL, dropTrailing]
  · rw [hcase]
    have hparse := parseURLL_origin_frag sch.data host.data ('/' :: p) hs hh
    rw [routeKeyL_eq_of_parse hparse]
    have hhash : mkHash (some ('/' :: p)) = String.mk ('#' :: '/' :: p) := rfl
    rw [hhash]
    rw [if_pos (by
      show 1 < (String.mk ('#' :: '/' :: p)).length
      have : (String.mk ('#' :: '/' :: p)).length = p.length + 2 := by
        show ('#' :: '/' :: p).length = p.length + 2
        simp
      rw [this]
      omega)]
    have hstrip : stripHashPfxL (String.mk ('#' :: '/' :: p)).data = p := rfl
    rw [hstrip]
    have hself : stripTrailingSlashesL p = p := stripTrailingSlashes_eq_self hlast
    rw [hself, if_neg hp]
  · rw [hcase]
    have hnp1 : '#' ∉ p := fun hm => (hchars _ hm).1 rfl
    have hnp2 : '?' ∉ p := fun hm => (hchars _ hm).2 rfl
    have hparse := parseURLL_origin_path sch.data host.data p hs hh hnp1 hnp2
    rw [routeKeyL_eq_of_parse hparse]
    rw [if_neg (by decide : ¬ 1 < ("" : String).length)]
    have hmkd : (String.mk ('/' :: p)).data = '/' :: p := rfl
    rw [hmkd]
    have hlast2 : ('/' :: p).getLast? ≠ some '/' := by
      rcases p with _ | ⟨b, p3⟩
      · exact absurd rfl hp
      · rw [List.getLast?_cons_cons]
        exact hlast
    rw [stripTrailingSlashes_eq_self hlast2]
    rw [if_neg (by simp : ¬ ('/' :: p) = [])]

/-- C4, witness: the round-trip theorem applied to a concrete hash address
over the base https://site.example/. -/
theorem C4_routeKey_roundtrip_witness :
    routeKey (appendKey "https://site.example/" "#/colors") = some "#/colors" :=
  C4_routeKey_roundtrip "https://site.example/#/colors" "https://site.example/"
    "https" "site.example" "#/colors"
    ⟨"https", true, "site.example", "", "/", "", "#/colors"⟩
    (by decide) rfl (by decide) (by decide) (by decide) (by decide)

/-- C5: for every valid site host, the bare root address and the
empty-fragment address normalize to the same key, namely the root key
slash: routeKey collapses the landing view's equivalent addresses. -/
theorem C5_root_addresses_collapse (host : String) (hh : validHostL host.data = true) :
    routeKey ("https://" ++ host ++ "/") = some "/" ∧
    routeKey ("https://" ++ host ++ "/#/") = some "/" := by
  have hs : validSchemeL "https".data = true := by decide
  constructor
  · rw [routeKey_eq_some_iff]
    have hd : ("https://" ++ host ++ "/").data =
        "https".data ++ ':' :: '/' :: '/' :: (host.data ++ '/' :: []) := by
      rw [String.data_append, String.data_append]
      simp
    rw [hd]
    have hparse := parseURLL_origin_path "https".data host.data [] hs hh
      (by simp) (by simp)
    rw [routeKeyL_eq_of_parse hparse]
    simp [stripTrailingSlashesL, dropTrailing]
  · rw [routeKey_eq_some_iff]
    have hd : ("https://" ++ host ++ "/#/").data =
        "https".data ++ ':' :: '/' :: '/' :: (host.data ++ '/' :: ([] ++ '#' :: ['/'])) := by
      rw [String.data_append, String.data_append]
      simp
    rw [hd]
    have hparse := parseURLL_origin_path_frag "https".data host.data [] ['/'] hs hh
      (by simp) (by simp)
    rw [routeKeyL_eq_of_parse hparse]
    simp [mkHash, stripHashPfxL, stripTrailingSlashesL, dropTrailing]

/-- C5, witness: the collapse theorem at the host site.example. -/
theorem C5_root_addresses_collapse_witness :
    routeKey ("https://" ++ "site.example" ++ "/") = some "/" ∧
    routeKey ("https://" ++ "site.example" ++ "/#/") = some "/" :=
  C5_root_addresses_collapse "site.example" (by decide)

theorem deriveContentRouteKey_nest (p label : String) (slug : List Char)
    (hs : labelToSlug label = some slug) (hp : p ≠ "")
    (hlast : p.data.getLast? ≠ some '/')
    (hw : ∀ c, p.data.getLast? = some c → c.isWhitespace = false) :
    deriveContentRouteKey ("#/" ++ p) label = some ("#/" ++ p ++ "/" ++ String.mk slug) := by
  have hpd : ("#/" ++ p).data = '#' :: '/' :: p.data := by
    rw [String.data_append]
    rfl
  have hpdata : p.data ≠ [] := fun he => hp (String.ext (by rw [he]))
  have hne : ¬ ("#/" ++ p : String) = "" := by
    intro he
    have := congrArg String.data he
    rw [hpd] at this
    cases this
  have hlast2 : ('#' :: '/' :: p.data).getLast? = p.data.getLast? := by
    rcases hq : p.data with _ | ⟨c, t⟩
    · exact absurd hq hpdata
    · rw [List.getLast?_cons_cons, List.getLast?_cons_cons]
  have hbase : trimL (stripTrailingSlashesL ('#' :: '/' :: p.data)) = '#' :: '/' :: p.data := by
    rw [stripTrailingSlashes_eq_self (show ('#' :: '/' :: p.data).getLast? ≠ some '/' by
      rw [hlast2]; exact hlast)]
    unfold trimL
    rw [dropWhile_eq_self_of_head _ _ (by
      intro c hc
      simp only [List.head?_cons, Option.some.injEq] at hc
      rw [← hc]
      decide)]
    exact dropTrailing_eq_self _ _ (by
      intro c hc
      rw [hlast2] at hc
      exact hw c hc)
  simp only [deriveContentRouteKey, hs]
  rw [if_neg hne, hpd, hbase]
  have hstrip : stripHashPfxL ('#' :: '/' :: p.data) = p.data := rfl
  rw [hstrip]
  rw [stripTrailingSlashes_eq_self hlast]
  rw [if_neg hpdata]
  have hmatch : (match '#' :: '/' :: p.data with
      | '#' :: _ => true
      | _ => false) = true := rfl
  simp only [hmatch]
  congr 1
  apply String.ext
  show "#/".data ++ p.data ++ '/' :: slug = _
  rw [String.data_append, String.data_append, String.data_append]
  simp

theorem deriveClickKey_content (fromKey urlAfter label r : String)
    (h1 : fromKey ≠ "") (h2 : fromKey ≠ "/") (h3 : fromKey ≠ "#/") (h4 : fromKey ≠ "#")
    (h5 : fromKey ≠ "#/components") (h6 : fromKey ≠ "/components")
    (hd : deriveContentRouteKey fromKey label = some r) :
    deriveClickKey fromKey false urlAfter label = some r := by
  unfold deriveClickKey
  rw [if_neg (by simp : ¬ (false : Bool) = true)]
  rw [if_neg (fun hc : fromKey ≠ "" ∧ (fromKey = "#/components" ∨ fromKey = "/components") =>
    hc.2.elim h5 h6)]
  rw [if_neg (by
    simp only [not_or]
    exact ⟨h1, h2, h3, h4⟩)]
  rw [hd]
  rfl

/-- C6: a content-only navigation from the root view with the label
Overview yields the synthetic hash key of the slug overview; in general the
synthetic key of a content-only click nests the label's slug under the
originating view's key path, and the click classifier of
discoverAndCapture uses exactly this derivation for non-root views. -/
theorem C6_synthetic_child_key :
    labelToSlug "Overview" = some "overview".data ∧
    (∀ urlAfter : String, deriveClickKey "/" false urlAfter "Overview" = some "#/overview") ∧
    (∀ (p label : String) (slug : List Char),
      labelToSlug label = some slug → p ≠ "" →
      p.data.getLast? ≠ some '/' →
      (∀ c, p.data.getLast? = some c → c.isWhitespace = false) →
      deriveContentRouteKey ("#/" ++ p) label = some ("#/" ++ p ++ "/" ++ String.mk slug)) ∧
    (∀ (fromKey urlAfter label r : String),
      fromKey ≠ "" → fromKey ≠ "/" → fromKey ≠ "#/" → fromKey ≠ "#" →
      fromKey ≠ "#/components" → fromKey ≠ "/components" →
      deriveContentRouteKey fromKey label = some r →
      deriveClickKey fromKey false urlAfter label = some r) := by
  refine ⟨by decide, fun u => rfl, deriveContentRouteKey_nest, deriveClickKey_content⟩

/-- C6, witness: the nesting rule applied to the label Button under the
key of the components listing view. -/
theorem C6_synthetic_child_key_witness :
    deriveContentRouteKey ("#/" ++ "components") "Button" =
      some ("#/" ++ "components" ++ "/" ++ String.mk "button".data) ∧
    deriveClickKey "#/colors" false "" "Usage" = some "#/colors/usage" := by
  constructor
  · exact C6_synthetic_child_key.2.2.1 "components" "Button" "button".data
      (by decide) (by decide) (by decide) (by decide)
  · exact C6_synthetic_child_key.2.2.2 "#/colors" "" "Usage" "#/colors/usage"
      (by decide) (by decide) (by decide) (by decide) (by decide) (by decide) (by decide)

/-- C8: when an address cannot be parsed, routeKey fails with none, and the
callers discard the candidate: the href-scanning step leaves the discovery
state unchanged, and the captureRoute and click inserts with a failed key
leave the Capture Store unchanged; no failure is raised anywhere. -/
theorem C8_invalid_address_discarded :
    (∀ a : String, parseURL a = none → routeKey a = none) ∧
    (∀ (base : String) (captured : CaptureStore) (st : DiscState) (href rawHref : String),
      strStartsWith rawHref "#" = false →
      routeKey href = none →
      processHref base captured st href rawHref = st) ∧
    (∀ (s : CaptureStore) (r : ViewRecord), applyEvent s (.capture none r) = s) ∧
    (∀ (s : CaptureStore) (r : ViewRecord), applyEvent s (.click none r) = s) := by
  refine ⟨?_, ?_, fun s r => rfl, fun s r => rfl⟩
  · intro a h
    have h2 : parseURLL a.data = none := h
    simp [routeKey, routeKeyL, h2]
  · intro base captured st href rawHref hraw hk
    unfold processHref
    rw [if_neg (fun hc : rawHref ≠ "" ∧ strStartsWith rawHref "#" = true => by
      rw [hraw] at hc
      exact absurd hc.2 (by simp))]
    by_cases hcond : href ≠ "" ∧ isInternalUrl base href = true
    · rw [if_pos hcond, hk]
    · rw [if_neg hcond]

/-- C8, witness: the discard theorem applied to the relative reference
slash-about, which the origin test accepts but normalization rejects. -/
theorem C8_invalid_address_discarded_witness :
    routeKey "not a url" = none ∧
    processHref "https://site.example/" [] ⟨[], []⟩ "/about" "" = ⟨[], []⟩ := by
  constructor
  · exact C8_invalid_address_discarded.1 "not a url" (by decide)
  · exact C8_invalid_address_discarded.2.1 "https://site.example/" [] ⟨[], []⟩ "/about" ""
      (by decide) (by decide)

/-- C9, counterexample: the candidate http://site.example/page is accepted
as internal against the base https://site.example/ although its origin
(scheme, host, port) differs from the base origin, refuting acceptance
exactly on origin equality. -/
theorem C9_counterexample :
    isInternalUrl "https://site.example/" "http://site.example/page" = true ∧
    (parseURL "http://site.example/page").map urlOrigin ≠
      (parseURL "https://site.example/").map urlOrigin := by decide

/-- C9, amended: a candidate reference is accepted as internal exactly when
it resolves against the base address and its hostname equals the base
hostname; scheme and port play no part, and resolution failure is
rejection. -/
theorem C9_hostname_test :
    (∀ (base href : String) (u b : URLParts),
      parseURL base = some b → parseURLWith href base = some u →
      (isInternalUrl base href = true ↔ u.host = b.host)) ∧
    (∀ base href : String, parseURLWith href base = none →
      isInternalUrl base href = false) := by
  constructor
  · intro base href u b hb hu
    simp [isInternalUrl, hu, hb]
  · intro base href h
    cases hpb : parseURL base with
    | none => simp [isInternalUrl, h, hpb]
    | some b => simp [isInternalUrl, h, hpb]

/-- C9, witness: the hostname test applied to a same-origin candidate. -/
theorem C9_hostname_test_witness :
    isInternalUrl "https://site.example/" "https://site.example/#/x" = true ↔
      ("site.example" : String) = "site.example" :=
  C9_hostname_test.1 "https://site.example/" "https://site.example/#/x"
    ⟨"https", true, "site.example", "", "/", "", "#/x"⟩
    ⟨"https", true, "site.example", "", "/", "", ""⟩ (by decide) (by decide)

theorem normalKeyTail_spec {p : String} (h : normalKeyTail p = true) :
    p.data ≠ [] ∧ p.data.head? ≠ some '/' ∧ p.data.getLast? ≠ some '/' ∧
    (∀ c ∈ p.data, ¬ c = '?' ∧ ¬ c = '&' ∧ ¬ c = '=') ∧
    endsWithHtmlL p.data = false := by
  unfold normalKeyTail at h
  simp only [Bool.and_eq_true, Bool.not_eq_true', bne_iff_ne, ne_eq, List.all_eq_true,
    Bool.or_eq_false_iff, beq_eq_false_iff_ne, List.isEmpty_eq_false] at h
  obtain ⟨⟨⟨⟨hne, hhead⟩, hlast⟩, hall⟩, hhtml⟩ := h
  exact ⟨hne, hhead, hlast,
    fun c hc => ⟨(hall c hc).1.1, (hall c hc).1.2, (hall c hc).2⟩, hhtml⟩

theorem escapeReservedL_eq_self {l : List Char}
    (h : ∀ c ∈ l, ¬ c = '?' ∧ ¬ c = '&' ∧ ¬ c = '=') : escapeReservedL l = l := by
  unfold escapeReservedL
  rw [List.map_congr_left (fun c hc => ?_), List.map_id']
  have := h c hc
  rw [if_neg (fun hor => hor.elim this.1 (fun hor2 => hor2.elim this.2.1 this.2.2))]

theorem routeToFilenameL_from (p : String) (h : normalKeyTail p = true) (l : List Char)
    (hl : stripTrailingSlashesL (stripOneLeadingSlashL (stripHashPfxL l)) = p.data) :
    routeToFilenameL l = p.data ++ ".html".data := by
  obtain ⟨hne, _, _, hall, hhtml⟩ := normalKeyTail_spec h
  simp only [routeToFilenameL, hl]
  rw [if_neg hne, escapeReservedL_eq_self hall]
  rw [if_neg (by rw [hhtml]; simp)]

theorem routeToFilename_hash_normal (p : String) (h : normalKeyTail p = true) :
    routeToFilename ("#/" ++ p) = String.mk (p.data ++ ".html".data) := by
  obtain ⟨hne, hhead, hlast, _, _⟩ := normalKeyTail_spec h
  have hd : ("#/" ++ p).data = '#' :: '/' :: p.data := by
    rw [String.data_append]
    rfl
  unfold routeToFilename
  rw [hd]
  congr 1
  refine routeToFilenameL_from p h _ ?_
  have h1 : stripHashPfxL ('#' :: '/' :: p.data) = p.data := rfl
  rw [h1]
  have h2 : stripOneLeadingSlashL p.data = p.data := by
    rcases hq : p.data with _ | ⟨c, t⟩
    · rfl
    · simp only [stripOneLeadingSlashL]
      rw [if_neg (show ¬ c = '/' from fun hc =>
        hhead (by rw [hq, List.head?_cons, hc]))]
  rw [h2]
  exact stripTrailingSlashes_eq_self hlast

theorem routeToFilename_path_normal (p : String) (h : normalKeyTail p = true) :
    routeToFilename ("/" ++ p) = String.mk (p.data ++ ".html".data) := by
  obtain ⟨hne, hhead, hlast, _, _⟩ := normalKeyTail_spec h
  have hd : ("/" ++ p).data = '/' :: p.data := by
    rw [String.data_append]
    rfl
  unfold routeToFilename
  rw [hd]
  congr 1
  refine routeToFilenameL_from p h _ ?_
  have h1 : stripHashPfxL ('/' :: p.data) = '/' :: p.data := rfl
  have h2 : stripOneLeadingSlashL ('/' :: p.data) = p.data := rfl
  rw [h1, h2]
  exact stripTrailingSlashes_eq_self hlast

/-- C7, counterexample: the distinct hash-style and path-style keys of the
same view name collide on the same file name, so distinct keys do not
always map to distinct paths. -/
theorem C7_counterexample :
    routeToFilename "#/colors" = "colors.html" ∧
    routeToFilename "/colors" = "colors.html" ∧
    ("#/colors" : String) ≠ "/colors" := by decide

/-- C7, amended: the key-to-filename mapping sends the root key to the
index document, nested keys to nested relative paths, escapes reserved
characters with underscores, and is deterministic; it is injective on
distinct keys of the same routing style whose tails are normal (nonempty,
no slash at either end, no reserved characters, not already ending in
dot-html) — but the hash-style and path-style spellings of the same tail
collide, so cross-style distinctness does not hold. -/
theorem C7_filename_mapping :
    routeToFilename "/" = "index.html" ∧
    routeToFilename "/docs/intro" = "docs/intro.html" ∧
    routeToFilename "#/a?b=c" = "a_b_c.html" ∧
    (∀ k1 k2 : String, k1 = k2 → routeToFilename k1 = routeToFilename k2) ∧
    (∀ p q : String, normalKeyTail p = true → normalKeyTail q = true →
      routeToFilename ("#/" ++ p) = routeToFilename ("#/" ++ q) → p = q) ∧
    (∀ p q : String, normalKeyTail p = true → normalKeyTail q = true →
      routeToFilename ("/" ++ p) = routeToFilename ("/" ++ q) → p = q) := by
  refine ⟨by decide, by decide, by decide, fun k1 k2 he => by rw [he], ?_, ?_⟩
  · intro p q hp hq he
    rw [routeToFilename_hash_normal p hp, routeToFilename_hash_normal q hq] at he
    have := congrArg String.data he
    have h2 : p.data ++ ".html".data = q.data ++ ".html".data := this
    exact String.ext (List.append_cancel_right h2)
  · intro p q hp hq he
    rw [routeToFilename_path_normal p hp, routeToFilename_path_normal q hq] at he
    have := congrArg String.data he
    have h2 : p.data ++ ".html".data = q.data ++ ".html".data := this
    exact String.ext (List.append_cancel_right h2)

/-- C7, witness: determinism and same-style injectivity at concrete keys. -/
theorem C7_filename_mapping_witness :
    routeToFilename "#/colors" = routeToFilename "#/colors" ∧
    ("colors" : String) = "colors" := by
  constructor
  · exact C7_filename_mapping.2.2.2.1 "#/colors" "#/colors" rfl
  · exact C7_filename_mapping.2.2.2.2.1 "colors" "colors" (by decide) (by decide) rfl

/- ── Capture Store invariant lemmas ─────────────────────────────────── -/

theorem hasKey_false_spec {s : CaptureStore} {k : String} (h : hasKey s k = false) :
    ∀ p ∈ s, p.1 ≠ k := by
  unfold hasKey at h
  simp only [List.any_eq_false] at h
  intro p hp
  have := h p hp
  simpa using this

theorem fpDup_false_spec {s : CaptureStore} {fp : String} (h : fpDup s fp = false) :
    ∀ p ∈ s, p.2.fingerprint = "" ∨ p.2.fingerprint ≠ fp := by
  unfold fpDup at h
  simp only [List.any_eq_false] at h
  intro p hp
  have := h p hp
  simp only [Bool.and_eq_true, decide_eq_true_eq, beq_iff_eq, not_and] at this
  by_cases he : p.2.fingerprint = ""
  · exact Or.inl he
  · exact Or.inr (this he)

theorem mapSet_keys {s : CaptureStore} (k : String) (r : ViewRecord)
    (h : hasKey s k = true) :
    (mapSet s k r).map (fun p => p.1) = s.map (fun p => p.1) := by
  unfold mapSet
  rw [if_pos h, List.map_map]
  apply List.map_congr_left
  intro p _
  by_cases hpk : (p.1 == k) = true
  · show (if p.1 == k then (k, r) else p).1 = p.1
    rw [if_pos hpk]
    exact (beq_iff_eq.mp hpk).symm
  · show (if p.1 == k then (k, r) else p).1 = p.1
    rw [if_neg hpk]

theorem mapSet_keysUnique {s : CaptureStore} (k : String) (r : ViewRecord)
    (h : keysUnique s) : keysUnique (mapSet s k r) := by
  by_cases hk : hasKey s k = true
  · unfold keysUnique
    rw [mapSet_keys k r hk]
    exact h
  · have hk2 : hasKey s k = false := by
      cases hq : hasKey s k
      · rfl
      · exact absurd hq hk
    unfold keysUnique mapSet
    rw [if_neg hk]
    rw [List.map_append]
    rw [List.nodup_append]
    refine ⟨h, by simp, ?_⟩
    intro x hx hxk
    simp only [List.map_cons, List.map_nil, List.mem_singleton] at hxk
    simp only [List.mem_map] at hx
    obtain ⟨p, hp, hpx⟩ := hx
    exact hasKey_false_spec hk2 p hp (by rw [hpx, hxk])

theorem applyEvent_keysUnique (s : CaptureStore) (e : CrawlEvent) (h : keysUnique s) :
    keysUnique (applyEvent s e) := by
  cases e with
  | sidebar k r =>
    simp only [applyEvent]
    split
    · exact h
    · split
      · exact h
      · exact mapSet_keysUnique k r h
  | click k? r =>
    cases k? with
    | none => exact h
    | some k =>
      simp only [applyEvent]
      split
      · exact h
      · split
        · exact h
        · exact mapSet_keysUnique k r h
  | capture k? r =>
    cases k? with
    | none => exact h
    | some k =>
      simp only [applyEvent]
      split
      · exact h
      · split
        · exact h
        · split
          · exact h
          · exact mapSet_keysUnique k r h

theorem foldl_applyEvent_keysUnique (evs : List CrawlEvent) : ∀ s : CaptureStore,
    keysUnique s → keysUnique (evs.foldl applyEvent s) := by
  induction evs with
  | nil => exact fun s h => h
  | cons e t ih => exact fun s h => ih _ (applyEvent_keysUnique s e h)

theorem insert_fpsUnique {s : CaptureStore} {k : String} {r : ViewRecord}
    (hs : fpsUnique s) (hd : fpDup s r.fingerprint = false)
    (hk : ¬ hasKey s k = true) : fpsUnique (mapSet s k r) := by
  unfold mapSet
  rw [if_neg hk]
  unfold fpsUnique
  rw [List.pairwise_append]
  refine ⟨hs, by simp, ?_⟩
  intro a ha b hb
  simp only [List.mem_singleton] at hb
  subst hb
  exact fpDup_false_spec hd a ha

theorem applyEvent_fpsUnique (s : CaptureStore) (e : CrawlEvent) (h : fpsUnique s)
    (hne : e.isCapture = false) : fpsUnique (applyEvent s e) := by
  cases e with
  | sidebar k r =>
    simp only [applyEvent]
    split
    · exact h
    · split
      · exact h
      · rename_i hk hd
        exact insert_fpsUnique h (by
          cases hq : fpDup s r.fingerprint
          · rfl
          · exact absurd hq hd) hk
  | click k? r =>
    cases k? with
    | none => exact h
    | some k =>
      simp only [applyEvent]
      split
      · exact h
      · split
        · exact h
        · rename_i hk hd
          exact insert_fpsUnique h (by
            cases hq : fpDup s r.fingerprint
            · rfl
            · exact absurd hq hd) hk
  | capture k? r => cases hne

theorem foldl_applyEvent_fpsUnique (evs : List CrawlEvent) : ∀ s : CaptureStore,
    fpsUnique s → (∀ e ∈ evs, e.isCapture = false) → fpsUnique (evs.foldl applyEvent s) := by
  induction evs with
  | nil => exact fun s h _ => h
  | cons e t ih =>
    intro s h hne
    exact ih _ (applyEvent_fpsUnique s e h (hne e (List.mem_cons_self e t)))
      (fun e2 he2 => hne e2 (List.mem_cons_of_mem _ he2))

/-- C1, counterexample: after the landing capture and one click-based
capture, an address-based captureRoute insert whose content repeats the
click capture's fingerprint is not rejected — captureRoute compares the
new fingerprint only against the landing record — so the store ends with
two records of equal nonempty fingerprints. -/
theorem C1_counterexample :
    fpDup (runCrawl c1landing [.click (some "#/x") c1clickRec]) c1captureRec.fingerprint
      = true ∧
    applyEvent (runCrawl c1landing [.click (some "#/x") c1clickRec])
      (.capture (some "#/y") c1captureRec) ≠
      runCrawl c1landing [.click (some "#/x") c1clickRec] ∧
    ¬ fpsUnique (runCrawl c1landing
      [.click (some "#/x") c1clickRec, .capture (some "#/y") c1captureRec]) := by decide

/-- C1, amended: the Capture Store never holds two records with the same
key under any sequence of crawl insertions; the landing, sidebar and click
insertions also preserve fingerprint uniqueness (no two records with equal
nonempty fingerprints) and reject duplicate keys and duplicate
fingerprints without modifying the store; the captureRoute insert rejects
duplicate keys but checks fingerprints only against the landing record. -/
theorem C1_capture_store_invariants :
    (∀ (landing : ViewRecord) (evs : List CrawlEvent),
      keysUnique (runCrawl landing evs)) ∧
    (∀ (landing : ViewRecord) (evs : List CrawlEvent),
      (∀ e ∈ evs, e.isCapture = false) → fpsUnique (runCrawl landing evs)) ∧
    (∀ (s : CaptureStore) (k : String) (r : ViewRecord), hasKey s k = true →
      applyEvent s (.sidebar k r) = s ∧ applyEvent s (.click (some k) r) = s ∧
      applyEvent s (.capture (some k) r) = s) ∧
    (∀ (s : CaptureStore) (k : String) (r : ViewRecord),
      fpDup s r.fingerprint = true →
      applyEvent s (.sidebar k r) = s ∧ applyEvent s (.click (some k) r) = s) := by
  refine ⟨?_, ?_, ?_, ?_⟩
  · intro landing evs
    exact foldl_applyEvent_keysUnique evs _ (mapSet_keysUnique _ _ (by simp [keysUnique]))
  · intro landing evs hne
    refine foldl_applyEvent_fpsUnique evs _ ?_ hne
    simp [mapSet, hasKey, fpsUnique]
  · intro s k r h
    refine ⟨?_, ?_, ?_⟩ <;> simp [applyEvent, h]
  · intro s k r h
    constructor <;> simp [applyEvent, h]

/-- C1, witness: the invariants and the rejections at concrete stores. -/
theorem C1_capture_store_invariants_witness :
    keysUnique (runCrawl c1landing [.click (some "#/x") c1clickRec]) ∧
    fpsUnique (runCrawl c1landing [.click (some "#/x") c1clickRec]) ∧
    applyEvent [("/", c1landing)] (.click (some "/") c1clickRec) = [("/", c1landing)] ∧
    applyEvent [("/", c1landing)] (.sidebar "#/z" (mkRec "#/z" "u" "A|||a")) =
      [("/", c1landing)] := by
  refine ⟨C1_capture_store_invariants.1 c1landing _,
          C1_capture_store_invariants.2.1 c1landing _ (by decide),
          (C1_capture_store_invariants.2.2.1 _ "/" c1clickRec (by decide)).2.1,
          (C1_capture_store_invariants.2.2.2 _ "#/z" _ (by decide)).1⟩

/- ── Page budget lemmas ─────────────────────────────────────────────── -/

theorem mapSet_length (s : CaptureStore) (k : String) (r : ViewRecord) :
    (mapSet s k r).length ≤ s.length + 1 := by
  unfold mapSet
  split
  · rw [List.length_map]
    omega
  · rw [List.length_append]
    simp

theorem runSeedItem_length_noclicks (maxPages : Nat) (s : CaptureStore) (it : SeedItem)
    (h : it.clicks = []) : (runSeedItem maxPages s it).length ≤ s.length + 1 := by
  unfold runSeedItem
  split
  · omega
  · split
    · omega
    · split
      · omega
      · split
        · omega
        · simp only [h]
          split
          · exact mapSet_length s it.key it.record
          · exact mapSet_length s it.key it.record

theorem runSeeds_length (maxPages : Nat) : ∀ (items : List SeedItem) (s : CaptureStore),
    (∀ it ∈ items, it.clicks = []) → s.length ≤ maxPages →
    (runSeeds maxPages s items).length ≤ maxPages := by
  intro items
  induction items with
  | nil => exact fun s _ h => h
  | cons it rest ih =>
    intro s hc h
    unfold runSeeds
    split
    · exact h
    · rename_i hge
      apply ih _ (fun x hx => hc x (List.mem_cons_of_mem _ hx))
      have h2 := runSeedItem_length_noclicks maxPages s it (hc it (List.mem_cons_self it rest))
      omega

/-- C3, counterexample: with a page budget of 3, a run whose single seeded
base page has three successful child clicks ends with 5 records — the
click-discovery loop of discoverAndCapture performs no budget check, so
the Capture Store exceeds MAX_PAGES. -/
theorem C3_counterexample :
    (runMain 3 c3landing [c3bigSeed]).length = 5 ∧
    3 < (runMain 3 c3landing [c3bigSeed]).length := by decide

/-- C3, amended: the budget is checked before each seeded base page and
before descending into a page's click discovery, but not inside the click
loop itself; a run whose click loops capture nothing never exceeds the
budget (for budgets of at least one page), and with a budget of 2 and
three discoverable seeded views exactly 2 records exist at the end. -/
theorem C3_page_budget :
    (∀ (maxPages : Nat) (landing : ViewRecord) (items : List SeedItem),
      1 ≤ maxPages → (∀ it ∈ items, it.clicks = []) →
      (runMain maxPages landing items).length ≤ maxPages) ∧
    (runMain 2 c3landing
      [c3seed "#/p1" "g1|||", c3seed "#/p2" "g2|||", c3seed "#/p3" "g3|||"]).length = 2 := by
  constructor
  · intro maxPages landing items h1 hc
    apply runSeeds_length maxPages items _ hc
    have h2 : (mapSet [] landing.key landing).length = 1 := rfl
    omega
  · decide

/-- C3, witness: the budget bound applied to the concrete budget-2 run. -/
theorem C3_page_budget_witness :
    (runMain 2 c3landing
      [c3seed "#/p1" "g1|||", c3seed "#/p2" "g2|||", c3seed "#/p3" "g3|||"]).length ≤ 2 :=
  C3_page_budget.1 2 c3landing
    [c3seed "#/p1" "g1|||", c3seed "#/p2" "g2|||", c3seed "#/p3" "g3|||"]
    (by decide) (by decide)

/- ── Rewriter lemmas ────────────────────────────────────────────────── -/

theorem strStartsWith_dot_iff {t : String} :
    strStartsWith t "." = true ↔ ∃ r, t.data = '.' :: r := by
  unfold strStartsWith
  rw [startsWithL_iff]
  constructor
  · rintro ⟨rest, hr⟩
    exact ⟨rest, hr⟩
  · rintro ⟨r, hr⟩
    exact ⟨r, hr⟩

theorem relHref_starts_dot (ck k : String) : strStartsWith (relHref ck k) "." = true := by
  simp only [relHref]
  split
  · rename_i h
    exact h
  · rw [strStartsWith_dot_iff]
    refine ⟨'/' :: (pathRelative (pathDirname (routeToFilename ck)) (routeToFilename k)).data, ?_⟩
    rw [String.data_append]
    rfl

theorem noSlashKey_head {key : String} {r : List Char} (h : key.data = '#' :: r) :
    ∃ r2, (noSlashKey key).data = '#' :: r2 := by
  have hd : (noSlashKey key).data = replaceFirstL "#/".data "#".data ('#' :: r) := by
    unfold noSlashKey
    rw [show (String.mk (replaceFirstL "#/".data "#".data key.data)).data =
      replaceFirstL "#/".data "#".data key.data from rfl, h]
  rw [hd]
  simp only [replaceFirstL]
  split
  · exact ⟨('#' :: r).drop "#/".data.length, rfl⟩
  · exact ⟨replaceFirstL "#/".data "#".data r, rfl⟩

theorem dot_ne_of_not_dot {x t : String} (hx : strStartsWith x "." = false)
    (ht : strStartsWith t "." = true) : t ≠ x ∧ t ≠ x ++ "/" := by
  obtain ⟨r, hr⟩ := strStartsWith_dot_iff.mp ht
  constructor
  · intro he
    rw [he] at ht
    rw [ht] at hx
    cases hx
  · intro he
    have hd := congrArg String.data he
    rw [String.data_append, hr] at hd
    rcases hx2 : x.data with _ | ⟨c, xs⟩
    · rw [hx2] at hd
      simp at hd
    · rw [hx2] at hd
      have hc : '.' = c := by
        rw [List.cons_append] at hd
        injection hd with h1 _
      have : strStartsWith x "." = true := by
        rw [strStartsWith_dot_iff]
        exact ⟨xs, by rw [hx2, ← hc]⟩
      rw [this] at hx
      cases hx

theorem dot_ne_of_hash_head {t k : String} (ht : strStartsWith t "." = true)
    {r : List Char} (hk : k.data = '#' :: r) : t ≠ k := by
  intro he
  obtain ⟨r2, hr2⟩ := strStartsWith_dot_iff.mp ht
  rw [he, hk] at hr2
  injection hr2 with h1 _
  cases h1

theorem mem_urlPatterns {L : List (String × ViewRecord)} {t : String}
    (h : t ∈ L.foldr (fun p acc => p.2.url :: (p.2.url ++ "/") :: acc) []) :
    ∃ p ∈ L, t = p.2.url ∨ t = p.2.url ++ "/" := by
  induction L with
  | nil => cases h
  | cons a rest ih =>
    simp only [List.foldr_cons, List.mem_cons] at h
    rcases h with h | h | h
    · exact ⟨a, List.mem_cons_self a rest, Or.inl h⟩
    · exact ⟨a, List.mem_cons_self a rest, Or.inr h⟩
    · obtain ⟨p, hp, hor⟩ := ih h
      exact ⟨p, List.mem_cons_of_mem _ hp, hor⟩

theorem not_mem_hrefPatterns_of_dot {store : CaptureStore} {kr : String × ViewRecord}
    {t : String} (hw : storeKeysAbsolute store) (hkr : kr ∈ store)
    (ht : strStartsWith t "." = true) : t ∉ hrefPatterns store kr.1 := by
  intro hmem
  obtain ⟨hk1, _⟩ := hw kr hkr
  unfold hrefPatterns at hmem
  split at hmem
  · rename_i hhash
    obtain ⟨r, hr⟩ := (by
      unfold strStartsWith at hhash
      rw [startsWithL_iff] at hhash
      exact hhash : ∃ r, kr.1.data = "#".data ++ r)
    simp only [List.mem_cons, List.mem_singleton] at hmem
    rcases hmem with hmem | hmem | hmem
    · exact dot_ne_of_hash_head ht hr (by rw [hmem])
    · obtain ⟨r2, hr2⟩ := noSlashKey_head hr
      exact dot_ne_of_hash_head ht hr2 (by rw [hmem])
    · cases hmem
  · simp only [List.mem_append, List.mem_cons, List.mem_singleton] at hmem
    rcases hmem with (hmem | hmem) | hmem
    · exact (dot_ne_of_not_dot hk1 ht).1 hmem
    · rcases hmem with hmem | hmem
      · exact (dot_ne_of_not_dot hk1 ht).2 hmem
      · cases hmem
    · obtain ⟨p, hp, hor⟩ := mem_urlPatterns hmem
      have hp2 : p ∈ store := List.mem_of_mem_filter hp
      obtain ⟨_, hu⟩ := hw p hp2
      rcases hor with hor | hor
      · exact (dot_ne_of_not_dot hu ht).1 hor
      · exact (dot_ne_of_not_dot hu ht).2 hor

theorem foldl_rewrite_of_dot (store : CaptureStore) (ck : String)
    (hw : storeKeysAbsolute store) :
    ∀ (L : List (String × ViewRecord)) (acc : String), (∀ p ∈ L, p ∈ store) →
    strStartsWith acc "." = true →
    L.foldl (fun acc p => if acc ∈ hrefPatterns store p.1 then relHref ck p.1 else acc) acc
      = acc := by
  intro L
  induction L with
  | nil => intro acc _ _; rfl
  | cons a rest ih =>
    intro acc hmem hacc
    simp only [List.foldl_cons]
    rw [if_neg (not_mem_hrefPatterns_of_dot hw (hmem a (List.mem_cons_self a rest)) hacc)]
    exact ih acc (fun p hp => hmem p (List.mem_cons_of_mem _ hp)) hacc

theorem foldl_rewrite_no_match (store : CaptureStore) (ck t : String) :
    ∀ (L : List (String × ViewRecord)), (∀ p ∈ L, t ∉ hrefPatterns store p.1) →
    L.foldl (fun acc p => if acc ∈ hrefPatterns store p.1 then relHref ck p.1 else acc) t
      = t := by
  intro L
  induction L with
  | nil => intro _; rfl
  | cons a rest ih =>
    intro hmem
    simp only [List.foldl_cons]
    rw [if_neg (hmem a (List.mem_cons_self a rest))]
    exact ih (fun p hp => hmem p (List.mem_cons_of_mem _ hp))

theorem rewriteToken_no_match (store : CaptureStore) (ck t : String)
    (h : ∀ p ∈ store, t ∉ hrefPatterns store p.1) : rewriteToken store ck t = t :=
  foldl_rewrite_no_match store ck t store h

theorem foldl_rewrite_match (store : CaptureStore) (ck t : String)
    (hw : storeKeysAbsolute store) :
    ∀ (L : List (String × ViewRecord)), (∀ p ∈ L, p ∈ store) →
    (∃ p ∈ L, t ∈ hrefPatterns store p.1) →
    ∃ p ∈ L,
      L.foldl (fun acc p => if acc ∈ hrefPatterns store p.1 then relHref ck p.1 else acc) t
        = relHref ck p.1 := by
  intro L
  induction L with
  | nil =>
    rintro _ ⟨p, hp, _⟩
    cases hp
  | cons a rest ih =>
    intro hsub hex
    simp only [List.foldl_cons]
    by_cases hm : t ∈ hrefPatterns store a.1
    · rw [if_pos hm]
      refine ⟨a, List.mem_cons_self a rest, ?_⟩
      exact foldl_rewrite_of_dot store ck hw rest (relHref ck a.1)
        (fun p hp => hsub p (List.mem_cons_of_mem _ hp)) (relHref_starts_dot ck a.1)
    · rw [if_neg hm]
      have hex2 : ∃ p ∈ rest, t ∈ hrefPatterns store p.1 := by
        obtain ⟨p, hp, hpm⟩ := hex
        rcases List.mem_cons.mp hp with hpa | hpr
        · exact absurd (hpa ▸ hpm) hm
        · exact ⟨p, hpr, hpm⟩
      obtain ⟨p, hp, hres⟩ := ih (fun q hq => hsub q (List.mem_cons_of_mem _ hq)) hex2
      exact ⟨p, List.mem_cons_of_mem _ hp, hres⟩

theorem rewriteToken_match (store : CaptureStore) (ck t : String)
    (hw : storeKeysAbsolute store) (ht : strStartsWith t "." = false)
    (hex : ∃ p ∈ store, t ∈ hrefPatterns store p.1) :
    ∃ p ∈ store, rewriteToken store ck t = relHref ck p.1 ∧
      strStartsWith (rewriteToken store ck t) "." = true ∧
      rewriteToken store ck t ≠ t := by
  obtain ⟨p, hp, hres⟩ :=
    foldl_rewrite_match store ck t hw store (fun q hq => hq) hex
  refine ⟨p, hp, hres, ?_, ?_⟩
  · rw [show rewriteToken store ck t = relHref ck p.1 from hres]
    exact relHref_starts_dot ck p.1
  · intro he
    have h2 : strStartsWith t "." = true := by
      rw [← he, show rewriteToken store ck t = relHref ck p.1 from hres]
      exact relHref_starts_dot ck p.1
    rw [h2] at ht
    cases ht

/-- C2, counterexample: the absolute address form of a captured hash route
is an internal reference to a key present in the Capture Store, yet the
rewriter leaves it unchanged — rewriteLinks only replaces the hash
shorthand forms of a hash key — so an emitted reference can still equal a
pre-rewrite internal reference to a captured key. -/
theorem C2_counterexample :
    isInternalUrl "https://site.example/" "https://site.example/#/colors" = true ∧
    routeKey "https://site.example/#/colors" = some "#/colors" ∧
    hasKey c2store "#/colors" = true ∧
    rewriteToken c2store "/" "https://site.example/#/colors" =
      "https://site.example/#/colors" := by decide

/-- C2, amended: a reference token matching none of the handled forms of
any captured key (the key and its hash shorthand for hash keys; the key,
the key with trailing slash, and the recorded absolute address forms for
path keys) is left unchanged — in particular every reference to a key
absent from the store keeps its original address — while a token matching
a handled form of a captured key is replaced by the dot-relative path to
some captured key's file and no longer equals its pre-rewrite form. -/
theorem C2_rewrite_links :
    (∀ (store : CaptureStore) (ck t : String),
      (∀ p ∈ store, t ∉ hrefPatterns store p.1) → rewriteToken store ck t = t) ∧
    (∀ (store : CaptureStore) (ck : String) (tokens : List String),
      (∀ t ∈ tokens, ∀ p ∈ store, t ∉ hrefPatterns store p.1) →
      rewriteLinks store ck tokens = tokens) ∧
    (∀ (store : CaptureStore) (ck t : String),
      storeKeysAbsolute store → strStartsWith t "." = false →
      (∃ p ∈ store, t ∈ hrefPatterns store p.1) →
      ∃ p ∈ store, rewriteToken store ck t = relHref ck p.1 ∧
        strStartsWith (rewriteToken store ck t) "." = true ∧
        rewriteToken store ck t ≠ t) := by
  refine ⟨rewriteToken_no_match, ?_, rewriteToken_match⟩
  intro store ck tokens h
  unfold rewriteLinks
  rw [List.map_congr_left (fun t htok => rewriteToken_no_match store ck t (h t htok)),
    List.map_id']

/-- C2, witness: an unmatched hash reference is kept and a matched one is
rewritten, on a concrete two-record store. -/
theorem C2_rewrite_links_witness :
    rewriteToken c2store "/" "#/about" = "#/about" ∧
    rewriteLinks c2store "/" ["#/about"] = ["#/about"] ∧
    ∃ p ∈ c2store, rewriteToken c2store "/" "#/colors" = relHref "/" p.1 ∧
      strStartsWith (rewriteToken c2store "/" "#/colors") "." = true ∧
      rewriteToken c2store "/" "#/colors" ≠ "#/colors" := by
  refine ⟨?_, ?_, ?_⟩
  · exact C2_rewrite_links.1 c2store "/" "#/about" (by decide)
  · exact C2_rewrite_links.2.1 c2store "/" ["#/about"] (by decide)
  · exact C2_rewrite_links.2.2 c2store "/" "#/colors" (by decide) (by decide) (by decide)
